import Mathlib

/-
  Verification development for the `ww` dynamic property broker
  (src/ww.js).  The JavaScript module is shallowly embedded: the mutable
  JS object graph becomes an explicit heap (a list of objects, addressed
  by position), JS values become the inductive `JSVal`, and every
  stateful operation threads the broker state `WwState` explicitly.
  Operations that can raise a host `TypeError` (property access on
  `null`/`undefined`, strict-mode assignment to a field of a primitive)
  return `Except JSErr`.
-/

set_option autoImplicit false
set_option maxRecDepth 8000

namespace WwModel

/-- A JavaScript run-time value.  Objects and functions are references
into the heap (functions can carry fields, which matters because the
module's own `Ww` function object is the default resolution context).
Built-in properties of primitives (such as `"abc".length`) are not
modelled; reading a field of a primitive yields `undefined`, as the
resolver only ever meets plain data here. -/
inductive JSVal : Type where
  | undef : JSVal
  | null : JSVal
  | bool : Bool → JSVal
  | num : Int → JSVal
  | str : String → JSVal
  | obj : Nat → JSVal
  | fn : Nat → JSVal
  deriving DecidableEq

/-- The JS `typeof` operator restricted to the values of the model
(`typeof null` is `"object"` in JavaScript). -/
def JSVal.typeof : JSVal → String
  | .undef => "undefined"
  | .null => "object"
  | .bool _ => "boolean"
  | .num _ => "number"
  | .str _ => "string"
  | .obj _ => "object"
  | .fn _ => "function"

/-- An object's own fields, in insertion order. -/
abbrev JSObj := List (String × JSVal)

/-- The JS object graph: object `a` lives at position `a`. -/
abbrev Heap := List JSObj

/-- First binding of a field in an object. -/
def fieldGet : JSObj → String → Option JSVal
  | [], _ => none
  | (g, w) :: rest, f => if g = f then some w else fieldGet rest f

/-- JS assignment `o[f] = v`: overwrite the binding in place, or append
a new one. -/
def fieldSet : JSObj → String → JSVal → JSObj
  | [], f, v => [(f, v)]
  | (g, w) :: rest, f, v => if g = f then (f, v) :: rest else (g, w) :: fieldSet rest f v

/-- Read field `f` of the object stored at address `a`. -/
def objGet (h : Heap) (a : Nat) (f : String) : Option JSVal :=
  (h.get? a).bind (fun o => fieldGet o f)

/-- The one host error the module can surface. -/
inductive JSErr : Type where
  | typeError : JSErr
  deriving DecidableEq

deriving instance DecidableEq for Except

/-- JS property read `v[f]`.  Reading from `null`/`undefined` throws;
reading a missing field — or any field of a primitive — yields
`undefined`. -/
def getProp (h : Heap) (v : JSVal) (f : String) : Except JSErr JSVal :=
  match v with
  | .undef => .error .typeError
  | .null => .error .typeError
  | .obj a => .ok ((objGet h a f).getD .undef)
  | .fn a => .ok ((objGet h a f).getD .undef)
  | _ => .ok (.undef)

/-- JS strict-mode property write `v[f] = x`: only objects and
functions can host fields; writing to a primitive or `null`/`undefined`
throws a `TypeError`. -/
def setProp (h : Heap) (v : JSVal) (f : String) (x : JSVal) : Except JSErr Heap :=
  match v with
  | .obj a => .ok (h.set a (fieldSet (h.getD a []) f x))
  | .fn a => .ok (h.set a (fieldSet (h.getD a []) f x))
  | _ => .error .typeError

/-- JS `path.split('.')`: split on every dot, keeping empty segments
(`"".split('.')` is `[""]`).  Implemented over the character list so it
computes by structural recursion. -/
def splitDot (s : String) : List String :=
  ((s.data).splitOn '.').map List.asString

/-- JS `!path.trim().length`: the string is empty or all whitespace. -/
def isBlank (s : String) : Bool :=
  s.data.all Char.isWhitespace

/-- A value's references all point inside the heap. -/
def valOkb (h : Heap) : JSVal → Bool
  | .obj a => decide (a < h.length)
  | .fn a => decide (a < h.length)
  | _ => true

/-- Every value stored anywhere in the heap points inside the heap. -/
def heapWFb (h : Heap) : Bool :=
  h.all (fun o => o.all (fun p => valOkb h p.2))

/-- The loop body of `_getProperty` (src/ww.js lines 241-261), walking
the already-split segment list.  `propertyPrevious` is the current
node; a segment whose lookup is `undefined` is either created from
`extendValue` (when one was supplied, i.e. `typeof extendValue` is not
`"undefined"`) — after which the walk re-reads the segment and
continues into it — or ends the walk with `undefined`. -/
def getPropLoop (h : Heap) (segs : List String) (propertyPrevious extendValue : JSVal) :
    Except JSErr (JSVal × Heap) :=
  match segs with
  | [] => .ok (propertyPrevious, h)
  | propertyString :: rest =>
    match getProp h propertyPrevious propertyString with
    | .error e => .error e
    | .ok property =>
      if property.typeof = "undefined" then
        if extendValue.typeof ≠ "undefined" then
          match setProp h propertyPrevious propertyString extendValue with
          | .error e => .error e
          | .ok h₁ =>
            match getProp h₁ propertyPrevious propertyString with
            | .error e => .error e
            | .ok propertyNext => getPropLoop h₁ rest propertyNext extendValue
        else .ok (.undef, h)
      else getPropLoop h rest property extendValue

/-- `_getProperty(propertyPathString, context, extendValue)`
(src/ww.js lines 241-261): split the path on `.` and walk it from
`context`.  Passing `extendValue = .undef` is the no-extension call. -/
def _getProperty (propertyPathString : String) (context extendValue : JSVal) (h : Heap) :
    Except JSErr (JSVal × Heap) :=
  getPropLoop h (splitDot propertyPathString) context extendValue

/-- `_Property` (src/ww.js lines 52-70): the registry's record of one
resolution event.  `new ww(property)` copies exactly these own fields
into the returned wrapper, so a caller-facing snapshot is a plain value
of this same shape. -/
structure PropertyRecord : Type where
  context : JSVal
  id : Nat
  path : String
  type : String
  value : JSVal
  deriving DecidableEq

/-- One observable callback invocation: which callback value was
called, the record it received, and the contents of the
`_propertiesUnready` map at the instant the callback got control (which
the callback could observe through `ww._propertiesUnready.getIds()`). -/
structure Event : Type where
  cb : JSVal
  arg : PropertyRecord
  pendingAtCall : List (Nat × JSVal)
  deriving DecidableEq

/-- The module-level mutable state: the JS heap, `_properties` (the
record with id `i` lives at position `i`; the `_Property` counter `_i`
equals `props.length`), and `_propertiesUnready` (id to callback). -/
structure WwState : Type where
  heap : Heap
  props : List PropertyRecord
  pending : List (Nat × JSVal)
  deriving DecidableEq

/-- Lookup in the pending map. -/
def plookup : List (Nat × JSVal) → Nat → Option JSVal
  | [], _ => none
  | (j, d) :: rest, i => if j = i then some d else plookup rest i

/-- `_propertiesUnready[id] = callback`: overwrite the entry for `id`,
or insert one.  Kept ordered by id, matching JS `for..in` enumeration
order of integer-like keys. -/
def pset : List (Nat × JSVal) → Nat → JSVal → List (Nat × JSVal)
  | [], i, c => [(i, c)]
  | (j, d) :: rest, i, c =>
    if i < j then (i, c) :: (j, d) :: rest
    else if i = j then (i, c) :: rest
    else (j, d) :: pset rest i c

/-- `delete _propertiesUnready[id]`. -/
def premove : List (Nat × JSVal) → Nat → List (Nat × JSVal)
  | [], _ => []
  | (j, d) :: rest, i => if j = i then premove rest i else (j, d) :: premove rest i

/-- Address of the `Ww` function object itself inside the heap.  `Ww`
is a function, so it can host fields; it is the process-wide default
resolution context. -/
def wwAddr : Nat := 0

/-- The `Ww` function object as a JS value. -/
def wwRoot : JSVal := .fn wwAddr

/-- `_getContext` (src/ww.js lines 224-229): a context is kept when
`typeof` says object or function (note `typeof null` is `"object"`),
anything else falls back to the `Ww` object. -/
def _getContext (context : JSVal) : JSVal :=
  if context.typeof = "object" ∨ context.typeof = "function" then context else wwRoot

/-- `PropertiesUnready.set` (src/ww.js lines 199-208): store a pending
callback.  Fails when the callback is not a function or the id has no
record (the id argument is already a `Nat` here, so the JS
`'number' !== typeof id` guard cannot fire). -/
def PropertiesUnready.set (id : Nat) (callback : JSVal) (st : WwState) : Bool × WwState :=
  if callback.typeof ≠ "function" then (false, st)
  else if (st.props.get? id).isNone then (false, st)
  else (true, { st with pending := pset st.pending id callback })

/-- `PropertiesUnready.getIds` (src/ww.js lines 159-168). -/
def PropertiesUnready.getIds (st : WwState) : List Nat :=
  st.pending.map Prod.fst

/-- The body of `PropertiesUnready.process` (src/ww.js lines 175-190):
iterate over the keys of `_propertiesUnready` as they stood when the
tick began.  For each entry still present: re-resolve the record's
path/context without extension; when the value is still `undefined` the
entry stays; otherwise update the record in the registry, invoke the
callback with the updated (live) record — note the entry is still in
the map at that instant — and only then delete the entry. -/
def processGo : List (Nat × JSVal) → WwState → Except JSErr (WwState × List Event)
  | [], st => .ok (st, [])
  | (i, _) :: rest, st =>
    match plookup st.pending i with
    | none => processGo rest st
    | some cb =>
      match st.props.get? i with
      | none => .error .typeError
      | some property =>
        match _getProperty property.path property.context .undef st.heap with
        | .error e => .error e
        | .ok (value, h₁) =>
          if value.typeof = "undefined" then processGo rest { st with heap := h₁ }
          else
            let property' : PropertyRecord :=
              { property with type := value.typeof, value := value }
            let st₁ : WwState := { st with heap := h₁, props := st.props.set i property' }
            let ev : Event := ⟨cb, property', st₁.pending⟩
            let st₂ : WwState := { st₁ with pending := premove st₁.pending i }
            match processGo rest st₂ with
            | .error e => .error e
            | .ok (st', evs) => .ok (st', ev :: evs)

/-- One tick of the readiness engine: `PropertiesUnready.process`. -/
def PropertiesUnready.process (st : WwState) : Except JSErr (WwState × List Event) :=
  processGo st.pending st

/-- `n` consecutive engine ticks, as driven by `Interval._callback`
(src/ww.js lines 102-107), with the invocation events of all ticks
concatenated in order. -/
def processIter : Nat → WwState → Except JSErr (WwState × List Event)
  | 0, st => .ok (st, [])
  | n + 1, st =>
    match PropertiesUnready.process st with
    | .error e => .error e
    | .ok (st₁, evs) =>
      match processIter n st₁ with
      | .error e => .error e
      | .ok (st₂, evs') => .ok (st₂, evs ++ evs')

/-- How many of the invocation events are for record id `i`. -/
def countEvents (i : Nat) (evs : List Event) : Nat :=
  (evs.filter (fun e => e.arg.id == i)).length

/-- `ww.prototype.getValue` (src/ww.js lines 342-348): re-resolve the
snapshot's path against its context (no extension); return the value if
defined, else the default. -/
def ww.getValue (s : PropertyRecord) (defaultValue : JSVal) (h : Heap) :
    Except JSErr (JSVal × Heap) :=
  match _getProperty s.path s.context .undef h with
  | .error e => .error e
  | .ok (value, h') =>
    .ok (if value.typeof ≠ "undefined" then value else defaultValue, h')

/-- `ww.prototype.getType` (src/ww.js lines 332-334). -/
def ww.getType (s : PropertyRecord) (h : Heap) : Except JSErr String :=
  match ww.getValue s .undef h with
  | .error e => .error e
  | .ok (value, _) => .ok value.typeof

/-- `ww.prototype.extend` (src/ww.js lines 320-325): when no value is
supplied, allocate a fresh empty object `{}`; then re-resolve the
snapshot's path with that extension value and return the result.  Note
it touches only the heap — never the registry. -/
def ww.extend (s : PropertyRecord) (value : JSVal) (st : WwState) :
    Except JSErr (JSVal × WwState) :=
  let p : JSVal × Heap :=
    if value.typeof = "undefined" then (JSVal.obj st.heap.length, st.heap ++ [[]])
    else (value, st.heap)
  match _getProperty s.path s.context p.1 p.2 with
  | .error e => .error e
  | .ok (r, h') => .ok (r, { st with heap := h' })

/-- `ww.prototype.ready` (src/ww.js lines 356-368): decide on the
snapshot's captured `type` tag.  When it is not `"undefined"`, invoke
the callback (if one was given) synchronously with the snapshot and
report `true`; otherwise register the callback with the readiness
engine (if one was given) and report `false`. -/
def ww.ready (s : PropertyRecord) (callback : JSVal) (st : WwState) :
    Bool × WwState × List Event :=
  let isCallbackAFunction := callback.typeof = "function"
  if s.type ≠ "undefined" then
    (true, st, if isCallbackAFunction then [⟨callback, s, st.pending⟩] else [])
  else if isCallbackAFunction then
    (false, (PropertiesUnready.set s.id callback st).2, [])
  else (false, st, [])

/-- The `Ww` facade (src/ww.js lines 386-402).  A non-blank string
path: fix up the context, resolve without extension, register a new
record (its id is the running counter, i.e. the current registry size)
and hand back a copy of it.  A number: look the id up in the registry —
returning the existing record's field copy, creating nothing — or
`undefined` for unknown (including negative) ids.  Anything else:
`undefined`. -/
def Ww (propertyPathString context : JSVal) (st : WwState) :
    Except JSErr (Option PropertyRecord × WwState) :=
  match propertyPathString with
  | .str s =>
    if isBlank s then .ok (none, st)
    else
      match _getProperty s (_getContext context) .undef st.heap with
      | .error e => .error e
      | .ok (value, h') =>
        let record : PropertyRecord :=
          ⟨_getContext context, st.props.length, s, value.typeof, value⟩
        .ok (some record, { st with heap := h', props := st.props ++ [record] })
  | .num n =>
    match n with
    | .ofNat k =>
      match st.props.get? k with
      | none => .ok (none, st)
      | some property => .ok (some property, st)
    | .negSucc _ => .ok (none, st)
  | _ => .ok (none, st)

/-- The no-extension walk of `_getProperty` never dereferences `null`:
either some segment lookup yields `undefined` (ending the walk early)
or the walk runs to the end, but no step reads a property of `null` (or
of `undefined`).  This is exactly the condition under which the
no-extension resolver cannot throw. -/
def nullFree (h : Heap) : List String → JSVal → Bool
  | [], _ => true
  | s :: rest, prev =>
    if prev = .undef ∨ prev = .null then false
    else
      match getProp h prev s with
      | .error _ => false
      | .ok x => if x.typeof = "undefined" then true else nullFree h rest x

/-- The registry invariant: the record stored at position `n + k` of
the tail carries id `n + k`. -/
def propsIdsFrom : Nat → List PropertyRecord → Bool
  | _, [] => true
  | n, r :: rest => r.id == n && propsIdsFrom (n + 1) rest

/-- Well-formedness of the module state used by the engine lemmas:
every registry slot `i` holds the record with id `i`. -/
def PropsWF (st : WwState) : Prop :=
  propsIdsFrom 0 st.props = true

instance (st : WwState) : Decidable (PropsWF st) := by
  unfold PropsWF; infer_instance

/-- Concrete state used by the witnesses: the `Ww` function object and
one empty context object at address 1. -/
def stCtx : WwState := ⟨[[], []], [], []⟩

/-- The pristine module state: only the `Ww` function object exists. -/
def st0 : WwState := ⟨[[]], [], []⟩

/-- Record created by `ww('a', ctx)` against the empty context object
at address 1: the path did not resolve, so the captured type tag is
`"undefined"`. -/
def recA : PropertyRecord := ⟨.obj 1, 0, "a", "undefined", .undef⟩

/-- `stCtx` right after `ww('a', ctx)` registered `recA`. -/
def stA : WwState := ⟨[[], []], [recA], []⟩

/-- `stA` after the host set `ctx.a = true` (and nothing else). -/
def stA' : WwState := ⟨[[], [("a", JSVal.bool true)]], [recA], []⟩

/-- `stA'` with the callback value `.fn 0` pending for record 0: the
state of `ctx = {}; ww('a', ctx).ready(cb); ctx.a = true` just before
an engine tick. -/
def stC1 : WwState := ⟨[[], [("a", JSVal.bool true)]], [recA], [(0, .fn 0)]⟩

/-- The record 0 as updated by the tick that finds `ctx.a = true`. -/
def recA' : PropertyRecord := ⟨.obj 1, 0, "a", "boolean", .bool true⟩

/-- The state after that tick: record updated, pending entry gone. -/
def stC1' : WwState := ⟨[[], [("a", JSVal.bool true)]], [recA'], []⟩

/-- The single invocation event of that tick.  Its `pendingAtCall`
component records that id 0 was still in the pending map when the
callback got control. -/
def evC1 : Event := ⟨.fn 0, recA', [(0, .fn 0)]⟩

/-- Heap with an empty context object at address 1 and a marker object
`{ m: 1 }` at address 2, used as an extension value. -/
def heapC2 : Heap := [[], [], [("m", JSVal.num 1)]]

/-- `heapC2` after `_getProperty('a.b', ctx, marker)`: both missing
segments were set to the marker object itself, aliasing it. -/
def heapC2' : Heap := [[], [("a", JSVal.obj 2)], [("m", JSVal.num 1), ("b", JSVal.obj 2)]]

/-- Record created by `ww('a.b', ctx)` against the context of `stB1`. -/
def recB : PropertyRecord := ⟨.obj 1, 0, "a.b", "undefined", .undef⟩

/-- Context `{}` at address 1, the object `{ b: 5 }` at address 2 (used
as an extension value), and `recB` registered. -/
def stB1 : WwState := ⟨[[], [], [("b", JSVal.num 5)]], [recB], []⟩

/-- `stB1` after `extend({b:5})` on path `a.b`: segment `a` was set to
the supplied object and the walk continued into it, finding `b = 5`. -/
def stB2 : WwState := ⟨[[], [("a", JSVal.obj 2)], [("b", JSVal.num 5)]], [recB], []⟩

/-- The invocation event of a tick that fires record 0 with the most
recently stored callback `.fn 1` (after it overwrote `.fn 0`). -/
def evC9 : Event := ⟨.fn 1, recA', [(0, JSVal.fn 1)]⟩

/-! ## Field and address algebra -/

theorem fieldGet_fieldSet_self (o : JSObj) (f : String) (v : JSVal) :
    fieldGet (fieldSet o f v) f = some v := by
  induction o with
  | nil => simp [fieldGet, fieldSet]
  | cons p rest ih =>
    obtain ⟨g, w⟩ := p
    by_cases hg : g = f
    · simp [fieldGet, fieldSet, hg]
    · simp [fieldGet, fieldSet, hg, ih]

theorem fieldGet_fieldSet_ne (o : JSObj) (f g : String) (v : JSVal) (hg : g ≠ f) :
    fieldGet (fieldSet o f v) g = fieldGet o g := by
  induction o with
  | nil => simp [fieldGet, fieldSet, Ne.symm hg]
  | cons p rest ih =>
    obtain ⟨g', w⟩ := p
    by_cases hg' : g' = f
    · subst hg'
      simp [fieldGet, fieldSet, Ne.symm hg, hg]
    · simp only [fieldSet, if_neg hg']
      by_cases hgg : g' = g
      · simp [fieldGet, hgg]
      · simp [fieldGet, hgg, ih]

theorem fieldGet_mem {o : JSObj} {f : String} {w : JSVal} (h : fieldGet o f = some w) :
    (f, w) ∈ o := by
  induction o with
  | nil => simp [fieldGet] at h
  | cons p rest ih =>
    obtain ⟨g, w'⟩ := p
    by_cases hg : g = f
    · subst hg
      simp [fieldGet] at h
      simp [h]
    · simp [fieldGet, hg] at h
      exact List.mem_cons_of_mem _ (ih h)

theorem fieldSet_mem {o : JSObj} {f : String} {v : JSVal} {p : String × JSVal}
    (h : p ∈ fieldSet o f v) : p = (f, v) ∨ p ∈ o := by
  induction o with
  | nil => simpa [fieldSet] using h
  | cons q rest ih =>
    obtain ⟨g, w⟩ := q
    by_cases hg : g = f
    · subst hg
      simp only [fieldSet, if_pos rfl] at h
      rcases List.mem_cons.1 h with h | h
      · exact Or.inl h
      · exact Or.inr (List.mem_cons_of_mem _ h)
    · simp only [fieldSet, if_neg hg] at h
      rcases List.mem_cons.1 h with h | h
      · exact Or.inr (by simp [h])
      · rcases ih h with h | h
        · exact Or.inl h
        · exact Or.inr (List.mem_cons_of_mem _ h)

theorem objGet_set_ne (h : Heap) (a b : Nat) (o : JSObj) (f : String) (hab : b ≠ a) :
    objGet (h.set a o) b f = objGet h b f := by
  simp [objGet, List.getElem?_set_ne (Ne.symm hab)]

theorem objGet_set_self (h : Heap) (a : Nat) (o : JSObj) (f : String) (ha : a < h.length) :
    objGet (h.set a o) a f = fieldGet o f := by
  simp [objGet, List.getElem?_set_eq_of_lt _ ha]

/-! ## Pending-map algebra -/

theorem plookup_pset_self (l : List (Nat × JSVal)) (i : Nat) (c : JSVal) :
    plookup (pset l i c) i = some c := by
  induction l with
  | nil => simp [pset, plookup]
  | cons p rest ih =>
    obtain ⟨j, d⟩ := p
    rcases Nat.lt_trichotomy i j with hij | hij | hij
    · simp [pset, hij, plookup]
    · simp [pset, hij, plookup]
    · have h1 : ¬ i < j := by omega
      have h2 : ¬ i = j := by omega
      have h3 : j ≠ i := by omega
      simp [pset, h1, h2, plookup, h3, ih]

theorem plookup_pset_ne (l : List (Nat × JSVal)) (i j : Nat) (c : JSVal) (hij : j ≠ i) :
    plookup (pset l i c) j = plookup l j := by
  induction l with
  | nil => simp [pset, plookup, hij.symm]
  | cons p rest ih =>
    obtain ⟨k, d⟩ := p
    by_cases hik : i < k
    · simp [pset, hik, plookup, hij.symm]
    · by_cases hik2 : i = k
      · subst hik2
        simp [pset, hik, plookup, hij.symm]
      · by_cases hkj : k = j
        · subst hkj
          simp [pset, hik, hik2, plookup]
        · simp [pset, hik, hik2, plookup, hkj, ih]

theorem pset_pset_same (l : List (Nat × JSVal)) (i : Nat) (c₁ c₂ : JSVal) :
    pset (pset l i c₁) i c₂ = pset l i c₂ := by
  induction l with
  | nil => simp [pset]
  | cons p rest ih =>
    obtain ⟨j, d⟩ := p
    rcases Nat.lt_trichotomy i j with hij | hij | hij
    · simp [pset, hij, Nat.lt_irrefl]
    · simp [pset, hij, Nat.lt_irrefl]
    · have h1 : ¬ i < j := by omega
      have h2 : ¬ i = j := by omega
      simp [pset, h1, h2, ih]

theorem plookup_premove_self (l : List (Nat × JSVal)) (i : Nat) :
    plookup (premove l i) i = none := by
  induction l with
  | nil => simp [premove, plookup]
  | cons p rest ih =>
    obtain ⟨j, d⟩ := p
    by_cases hij : j = i
    · simp [premove, hij, ih]
    · simp [premove, hij, plookup, ih]

theorem plookup_premove_ne (l : List (Nat × JSVal)) (i j : Nat) (hij : j ≠ i) :
    plookup (premove l i) j = plookup l j := by
  induction l with
  | nil => simp [premove]
  | cons p rest ih =>
    obtain ⟨k, d⟩ := p
    by_cases hik : k = i
    · subst hik
      simp [premove, plookup, hij.symm, ih]
    · simp [premove, hik, plookup, ih]

/-! ## Registry-index algebra -/

theorem propsIdsFrom_get {l : List PropertyRecord} {n k : Nat} {r : PropertyRecord}
    (hwf : propsIdsFrom n l = true) (hk : l.get? k = some r) : r.id = n + k := by
  induction l generalizing n k with
  | nil => simp at hk
  | cons q rest ih =>
    simp only [propsIdsFrom, Bool.and_eq_true, beq_iff_eq] at hwf
    cases k with
    | zero => simp_all
    | succ k' =>
      simp only [List.get?] at hk
      have := ih hwf.2 hk
      omega

theorem propsIdsFrom_set {l : List PropertyRecord} {n k : Nat} {r r' : PropertyRecord}
    (hwf : propsIdsFrom n l = true) (hk : l.get? k = some r) (hid : r'.id = r.id) :
    propsIdsFrom n (l.set k r') = true := by
  induction l generalizing n k with
  | nil => simp at hk
  | cons q rest ih =>
    simp only [propsIdsFrom, Bool.and_eq_true, beq_iff_eq] at hwf
    cases k with
    | zero =>
      simp only [List.get?] at hk
      cases hk
      simp [List.set, propsIdsFrom, hid, hwf.1, hwf.2]
    | succ k' =>
      simp only [List.get?] at hk
      simp [List.set, propsIdsFrom, hwf.1, ih hwf.2 hk]

/-! ## Single property-write lemmas -/

theorem objGet_eq_getD (h : Heap) (a : Nat) (f : String) (ha : a < h.length) :
    objGet h a f = fieldGet (h.getD a []) f := by
  simp [objGet, List.get?_eq_getElem?, List.getD_eq_getElem?_getD, List.getElem?_eq_getElem ha]

theorem setProp_shape {h h₁ : Heap} {w : JSVal} {s : String} {v : JSVal}
    (hset : setProp h w s v = .ok h₁) :
    ∃ a, (w = .obj a ∨ w = .fn a) ∧ h₁ = h.set a (fieldSet (h.getD a []) s v) := by
  cases w with
  | obj a =>
    simp only [setProp, Except.ok.injEq] at hset
    exact ⟨a, Or.inl rfl, hset.symm⟩
  | fn a =>
    simp only [setProp, Except.ok.injEq] at hset
    exact ⟨a, Or.inr rfl, hset.symm⟩
  | undef => simp [setProp] at hset
  | null => simp [setProp] at hset
  | bool b => simp [setProp] at hset
  | num n => simp [setProp] at hset
  | str t => simp [setProp] at hset

theorem setProp_length {h h₁ : Heap} {w : JSVal} {s : String} {v : JSVal}
    (hset : setProp h w s v = .ok h₁) : h₁.length = h.length := by
  obtain ⟨a, -, rfl⟩ := setProp_shape hset
  simp

theorem setProp_changes {h h₁ : Heap} {w : JSVal} {s : String} {v : JSVal}
    (hset : setProp h w s v = .ok h₁) :
    ∀ a g, objGet h₁ a g ≠ objGet h a g → objGet h₁ a g = some v := by
  obtain ⟨a₀, -, rfl⟩ := setProp_shape hset
  intro a g hne
  by_cases ha : a = a₀
  · subst ha
    by_cases halen : a < h.length
    · rw [objGet_set_self h a _ g halen] at hne ⊢
      by_cases hg : g = s
      · subst hg
        exact fieldGet_fieldSet_self _ _ _
      · rw [fieldGet_fieldSet_ne _ _ _ _ hg, ← objGet_eq_getD h a g halen] at hne
        exact absurd rfl hne
    · rw [List.set_eq_of_length_le (by omega)] at hne
      exact absurd rfl hne
  · rw [objGet_set_ne _ _ _ _ _ ha] at hne
    exact absurd rfl hne

theorem setProp_preserves {h h₁ : Heap} {w : JSVal} {s : String} {v : JSVal}
    (hset : setProp h w s v = .ok h₁) (hund : getProp h w s = .ok .undef) :
    ∀ a g x, objGet h a g = some x → x ≠ .undef → objGet h₁ a g = some x := by
  intro a g x hx hxu
  by_cases hchange : objGet h₁ a g = objGet h a g
  · rw [hchange, hx]
  · exfalso
    obtain ⟨a₀, hw, rfl⟩ := setProp_shape hset
    by_cases ha : a = a₀
    · subst ha
      by_cases halen : a < h.length
      · by_cases hg : g = s
        · subst hg
          have : objGet h a g = none ∨ objGet h a g = some JSVal.undef := by
            rcases hw with rfl | rfl <;>
              · simp only [getProp, Except.ok.injEq] at hund
                cases hob : objGet h a g <;> simp_all [Option.getD]
          rw [hx] at this
          rcases this with h' | h' <;> simp_all
        · rw [objGet_set_self h a _ g halen, fieldGet_fieldSet_ne _ _ _ _ hg,
            ← objGet_eq_getD h a g halen] at hchange
          exact hchange rfl
      · rw [List.set_eq_of_length_le (by omega)] at hchange
        exact hchange rfl
    · rw [objGet_set_ne _ _ _ _ _ ha] at hchange
      exact hchange rfl

theorem setProp_get {h h₁ : Heap} {w : JSVal} {s : String} {v : JSVal}
    (hset : setProp h w s v = .ok h₁) (hok : valOkb h w = true) :
    getProp h₁ w s = .ok v := by
  obtain ⟨a₀, hw, rfl⟩ := setProp_shape hset
  have halen : a₀ < h.length := by
    rcases hw with rfl | rfl <;> simpa [valOkb] using hok
  rcases hw with rfl | rfl <;>
    simp [getProp, objGet_set_self h a₀ _ s halen, fieldGet_fieldSet_self]

/-! ## Heap well-formedness lemmas -/

theorem valOkb_of_length {h h₂ : Heap} (hlen : h.length = h₂.length) (v : JSVal) :
    valOkb h v = valOkb h₂ v := by
  cases v <;> simp [valOkb, hlen]

theorem heapWFb_objGet {h : Heap} {a : Nat} {f : String} {w : JSVal}
    (hwf : heapWFb h = true) (hx : objGet h a f = some w) : valOkb h w = true := by
  unfold objGet at hx
  cases hget : h.get? a with
  | none => rw [hget] at hx; simp at hx
  | some o =>
    rw [hget] at hx
    simp only [Option.some_bind] at hx
    have hmem : o ∈ h := List.get?_mem hget
    have hfw : (f, w) ∈ o := fieldGet_mem hx
    simp only [heapWFb, List.all_eq_true] at hwf
    have h2 := hwf o hmem
    simp only [List.all_eq_true] at h2
    exact h2 (f, w) hfw

theorem getProp_valOk {h : Heap} {prev : JSVal} {s : String} {x : JSVal}
    (hwf : heapWFb h = true) (hx : getProp h prev s = .ok x) : valOkb h x = true := by
  cases prev with
  | undef => simp [getProp] at hx
  | null => simp [getProp] at hx
  | obj a =>
    simp only [getProp, Except.ok.injEq] at hx
    cases hget : objGet h a s with
    | none => rw [hget] at hx; simp [Option.getD] at hx; simp [← hx, valOkb]
    | some w =>
      rw [hget] at hx
      simp [Option.getD] at hx
      exact hx ▸ heapWFb_objGet hwf hget
  | fn a =>
    simp only [getProp, Except.ok.injEq] at hx
    cases hget : objGet h a s with
    | none => rw [hget] at hx; simp [Option.getD] at hx; simp [← hx, valOkb]
    | some w =>
      rw [hget] at hx
      simp [Option.getD] at hx
      exact hx ▸ heapWFb_objGet hwf hget
  | bool b => simp only [getProp, Except.ok.injEq] at hx; simp [← hx, valOkb]
  | num n => simp only [getProp, Except.ok.injEq] at hx; simp [← hx, valOkb]
  | str t => simp only [getProp, Except.ok.injEq] at hx; simp [← hx, valOkb]

theorem heapWFb_setProp {h h₁ : Heap} {w : JSVal} {s : String} {v : JSVal}
    (hwf : heapWFb h = true) (hv : valOkb h v = true)
    (hset : setProp h w s v = .ok h₁) : heapWFb h₁ = true := by
  obtain ⟨a₀, -, rfl⟩ := setProp_shape hset
  have hlen : h.length = (h.set a₀ (fieldSet (h.getD a₀ []) s v)).length := by simp
  simp only [heapWFb, List.all_eq_true] at hwf ⊢
  intro o ho p hp
  rw [← valOkb_of_length hlen]
  rcases List.mem_or_eq_of_mem_set ho with ho | rfl
  · exact hwf o ho p hp
  · rcases fieldSet_mem hp with rfl | hp2
    · exact hv
    · by_cases ha : a₀ < h.length
      · have hmem : h.getD a₀ [] ∈ h := by
          rw [List.getD_eq_getElem?_getD, List.getElem?_eq_getElem ha]
          exact List.getElem_mem ha
        exact hwf _ hmem p hp2
      · rw [List.getD_eq_getElem?_getD, List.getElem?_eq_none (by omega)] at hp2
        simp at hp2

/-! ## Path-walk lemmas -/

/-- A walk without extension never changes the heap. -/
theorem getPropLoop_noext_heap {segs : List String} {h h' : Heap} {prev r : JSVal}
    (hok : getPropLoop h segs prev .undef = .ok (r, h')) : h' = h := by
  induction segs generalizing h prev with
  | nil =>
    simp only [getPropLoop, Except.ok.injEq, Prod.mk.injEq] at hok
    exact hok.2.symm
  | cons s rest ih =>
    rw [getPropLoop] at hok
    split at hok
    · exact absurd hok (by simp)
    · split at hok
      · simp only [JSVal.typeof, ne_eq, not_true_eq_false, if_false, Except.ok.injEq,
          Prod.mk.injEq] at hok
        exact hok.2.symm
      · exact ih hok

/-- Every heap change made by an extending walk stores exactly the
extension value. -/
theorem getPropLoop_writes {v : JSVal} {segs : List String} {h h' : Heap} {prev r : JSVal}
    (hok : getPropLoop h segs prev v = .ok (r, h')) :
    ∀ a f, objGet h' a f ≠ objGet h a f → objGet h' a f = some v := by
  induction segs generalizing h prev with
  | nil =>
    simp only [getPropLoop, Except.ok.injEq, Prod.mk.injEq] at hok
    intro a f hne
    rw [hok.2] at hne
    exact absurd rfl hne
  | cons s rest ih =>
    rw [getPropLoop] at hok
    split at hok
    · exact absurd hok (by simp)
    · split at hok
      · split at hok
        · split at hok
          · exact absurd hok (by simp)
          · rename_i h₁ hset
            split at hok
            · exact absurd hok (by simp)
            · intro a f hne
              by_cases hmid : objGet h' a f = objGet h₁ a f
              · rw [hmid]
                rw [hmid] at hne
                exact setProp_changes hset a f hne
              · exact ih hok a f hmid
        · simp only [Except.ok.injEq, Prod.mk.injEq] at hok
          intro a f hne
          rw [hok.2] at hne
          exact absurd rfl hne
      · exact ih hok

/-- An extending walk never destroys an already-defined field: any
field that held a value other than `undefined` still holds it after
the walk. -/
theorem getPropLoop_preserves {v : JSVal} {segs : List String} {h h' : Heap} {prev r : JSVal}
    (hok : getPropLoop h segs prev v = .ok (r, h')) :
    ∀ a f x, objGet h a f = some x → x ≠ .undef → objGet h' a f = some x := by
  induction segs generalizing h prev with
  | nil =>
    simp only [getPropLoop, Except.ok.injEq, Prod.mk.injEq] at hok
    intro a f x hx _
    rw [← hok.2]
    exact hx
  | cons s rest ih =>
    rw [getPropLoop] at hok
    split at hok
    · exact absurd hok (by simp)
    · rename_i property hget
      split at hok
      · rename_i hund
        split at hok
        · split at hok
          · exact absurd hok (by simp)
          · rename_i h₁ hset
            split at hok
            · exact absurd hok (by simp)
            · intro a f x hx hxu
              have hstep : objGet h₁ a f = some x := by
                apply setProp_preserves hset _ a f x hx hxu
                have : property = JSVal.undef := by
                  cases property <;> simp_all [JSVal.typeof]
                rw [← this]
                exact hget
              exact ih hok a f x hstep hxu
        · simp only [Except.ok.injEq, Prod.mk.injEq] at hok
          intro a f x hx _
          rw [← hok.2]
          exact hx
      · exact ih hok

/-- A no-extension walk that finds a defined value is reproduced
verbatim — and writes nothing — by a walk with any extension value. -/
theorem getPropLoop_resolved {segs : List String} {h h' : Heap} {prev r : JSVal}
    (hok : getPropLoop h segs prev .undef = .ok (r, h'))
    (hr : r.typeof ≠ "undefined") :
    ∀ v, getPropLoop h segs prev v = .ok (r, h) := by
  induction segs generalizing h prev with
  | nil =>
    simp only [getPropLoop, Except.ok.injEq, Prod.mk.injEq] at hok
    intro v
    simp [getPropLoop, hok.1]
  | cons s rest ih =>
    rw [getPropLoop] at hok
    split at hok
    · exact absurd hok (by simp)
    · rename_i property hget
      split at hok
      · rename_i hund
        simp only [JSVal.typeof, ne_eq, not_true_eq_false, if_false, Except.ok.injEq,
          Prod.mk.injEq] at hok
        rw [← hok.1] at hr
        simp [JSVal.typeof] at hr
      · rename_i hund
        intro v
        rw [getPropLoop]
        simp only [hget]
        rw [if_neg hund]
        exact ih hok v

theorem typeof_undef_iff (v : JSVal) : v.typeof = "undefined" ↔ v = .undef := by
  cases v <;> simp [JSVal.typeof]

theorem getProp_defined {h : Heap} {prev : JSVal} {s : String} {x : JSVal}
    (hx : getProp h prev s = .ok x) (hxu : x ≠ .undef) :
    ∃ a, (prev = .obj a ∨ prev = .fn a) ∧ objGet h a s = some x := by
  cases prev with
  | obj a =>
    refine ⟨a, Or.inl rfl, ?_⟩
    simp only [getProp, Except.ok.injEq] at hx
    cases hget : objGet h a s with
    | none => rw [hget] at hx; simp [Option.getD] at hx; exact absurd hx.symm hxu
    | some w => rw [hget] at hx; simp [Option.getD] at hx; rw [hx]
  | fn a =>
    refine ⟨a, Or.inr rfl, ?_⟩
    simp only [getProp, Except.ok.injEq] at hx
    cases hget : objGet h a s with
    | none => rw [hget] at hx; simp [Option.getD] at hx; exact absurd hx.symm hxu
    | some w => rw [hget] at hx; simp [Option.getD] at hx; rw [hx]
  | undef => simp [getProp] at hx
  | null => simp [getProp] at hx
  | bool b => simp only [getProp, Except.ok.injEq] at hx; exact absurd hx.symm hxu
  | num n => simp only [getProp, Except.ok.injEq] at hx; exact absurd hx.symm hxu
  | str t => simp only [getProp, Except.ok.injEq] at hx; exact absurd hx.symm hxu

/-- A walk preserves the heap size: extension only fills fields of
existing objects, it never allocates. -/
theorem getPropLoop_length {v : JSVal} {segs : List String} {h h' : Heap} {prev r : JSVal}
    (hok : getPropLoop h segs prev v = .ok (r, h')) : h'.length = h.length := by
  induction segs generalizing h prev with
  | nil =>
    simp only [getPropLoop, Except.ok.injEq, Prod.mk.injEq] at hok
    rw [hok.2]
  | cons s rest ih =>
    rw [getPropLoop] at hok
    split at hok
    · exact absurd hok (by simp)
    · split at hok
      · split at hok
        · split at hok
          · exact absurd hok (by simp)
          · rename_i h₁ hset
            split at hok
            · exact absurd hok (by simp)
            · exact (ih hok).trans (setProp_length hset)
        · simp only [Except.ok.injEq, Prod.mk.injEq] at hok
          rw [← hok.2]
      · exact ih hok

/-- Composing a walk over a split segment list: once the prefix of the
walk has produced a defined intermediate node, the walk over the whole
list continues from it. -/
theorem getPropLoop_append {v m : JSVal} {xs ys : List String} {h h₂ : Heap} {prev : JSVal}
    (hok : getPropLoop h xs prev v = .ok (m, h₂)) (hm : m ≠ .undef) :
    getPropLoop h (xs ++ ys) prev v = getPropLoop h₂ ys m v := by
  induction xs generalizing h prev with
  | nil =>
    simp only [getPropLoop, Except.ok.injEq, Prod.mk.injEq] at hok
    rw [List.nil_append, hok.1, hok.2]
  | cons s rest ih =>
    rw [getPropLoop] at hok
    split at hok
    · exact absurd hok (by simp)
    · rename_i property hget
      rw [List.cons_append, getPropLoop]
      simp only [hget]
      split at hok
      · rename_i hund
        rw [if_pos hund]
        split at hok
        · rename_i hext
          rw [if_pos hext]
          split at hok
          · exact absurd hok (by simp)
          · rename_i h₁ hset
            split at hok
            · exact absurd hok (by simp)
            · rename_i next hre
              exact ih hok
        · rename_i hext
          rw [if_neg hext]
          simp only [Except.ok.injEq, Prod.mk.injEq] at hok
          exact absurd hok.1.symm hm
      · rename_i hund
        rw [if_neg hund]
        exact ih hok

/-- Resolving again, without extension, right after an extending walk
reproduces the walk's result and changes nothing further (the heap must
be closed and the context and extension value must point into it). -/
theorem getPropLoop_idem {v : JSVal} {segs : List String} {h h' : Heap} {prev r : JSVal}
    (hwf : heapWFb h = true) (hprev : valOkb h prev = true) (hv : valOkb h v = true)
    (hvu : v ≠ .undef)
    (hok : getPropLoop h segs prev v = .ok (r, h')) :
    getPropLoop h' segs prev .undef = .ok (r, h') ∧ heapWFb h' = true ∧
      h'.length = h.length ∧ valOkb h' r = true := by
  induction segs generalizing h prev with
  | nil =>
    simp only [getPropLoop, Except.ok.injEq, Prod.mk.injEq] at hok
    obtain ⟨rfl, rfl⟩ := hok
    exact ⟨rfl, hwf, rfl, hprev⟩
  | cons s rest ih =>
    rw [getPropLoop] at hok
    split at hok
    · exact absurd hok (by simp)
    · rename_i property hget
      split at hok
      · rename_i hund
        split at hok
        · split at hok
          · exact absurd hok (by simp)
          · rename_i h₁ hset
            split at hok
            · exact absurd hok (by simp)
            · rename_i next hre
              have hnext : next = v :=
                (Except.ok.inj ((setProp_get hset hprev).symm.trans hre)).symm
              rw [hnext] at hok hre
              have hlen₁ : h₁.length = h.length := setProp_length hset
              have hwf₁ : heapWFb h₁ = true := heapWFb_setProp hwf hv hset
              have hv₁ : valOkb h₁ v = true := by
                rw [← valOkb_of_length hlen₁.symm]
                exact hv
              obtain ⟨hrest, hwf', hlen', hvr'⟩ := ih hwf₁ hv₁ hv₁ hok
              obtain ⟨a₀, hw, -⟩ := setProp_shape hset
              have hread : objGet h₁ a₀ s = some v := by
                obtain ⟨a₁, hw₁, hr₁⟩ := getProp_defined hre hvu
                rcases hw with rfl | rfl <;> rcases hw₁ with h1 | h1 <;>
                  simp_all
              have hkeep : objGet h' a₀ s = some v :=
                getPropLoop_preserves hok a₀ s v hread hvu
              refine ⟨?_, hwf', hlen'.trans hlen₁, hvr'⟩
              rw [getPropLoop]
              have hget' : getProp h' prev s = .ok v := by
                rcases hw with rfl | rfl <;> simp [getProp, hkeep]
              simp only [hget']
              rw [if_neg (by rw [typeof_undef_iff]; exact hvu)]
              exact hrest
        · rename_i hext
          exfalso
          apply hext
          rw [ne_eq, typeof_undef_iff]
          exact hvu
      · rename_i hund
        have hpnu : property ≠ .undef := fun hcon => hund (by rw [hcon]; rfl)
        have hvp : valOkb h property = true := getProp_valOk hwf hget
        obtain ⟨hrest, hwf', hlen', hvr'⟩ := ih hwf hvp hv hok
        obtain ⟨a₁, hw₁, hr₁⟩ := getProp_defined hget hpnu
        have hkeep : objGet h' a₁ s = some property :=
          getPropLoop_preserves hok a₁ s property hr₁ hpnu
        refine ⟨?_, hwf', hlen', hvr'⟩
        rw [getPropLoop]
        have hget' : getProp h' prev s = .ok property := by
          rcases hw₁ with rfl | rfl <;> simp [getProp, hkeep]
        simp only [hget']
        rw [if_neg hund]
        exact hrest

/-- When the no-extension walk never dereferences `null`, it cannot
throw: it returns some value with the heap untouched. -/
theorem nullFree_ok {h : Heap} {segs : List String} {prev : JSVal}
    (hnf : nullFree h segs prev = true) :
    ∃ r, getPropLoop h segs prev .undef = .ok (r, h) := by
  induction segs generalizing prev with
  | nil => exact ⟨prev, rfl⟩
  | cons s rest ih =>
    rw [nullFree] at hnf
    split at hnf
    · exact absurd hnf (by simp)
    · rename_i hpn
      split at hnf
      · exact absurd hnf (by simp)
      · rename_i x hget
        by_cases hxu : x.typeof = "undefined"
        · refine ⟨.undef, ?_⟩
          rw [getPropLoop]
          simp only [hget]
          rw [if_pos hxu]
          simp [JSVal.typeof]
        · rw [if_neg hxu] at hnf
          obtain ⟨r, hr⟩ := ih hnf
          refine ⟨r, ?_⟩
          rw [getPropLoop]
          simp only [hget]
          rw [if_neg hxu]
          exact hr

/-! ## Readiness-engine lemmas -/

/-- Everything one engine tick guarantees, established in a single
induction over the iteration list: the tick leaves the heap alone;
preserves the registry invariant, the registry size, and every record's
id, path and context; only ever shrinks the pending map; and, for each
invocation event, the callback invoked is the one stored for that
record id at tick start, the id is still in the pending map at the
instant the callback runs, the id is gone once the tick completes, and
no id fires twice in one tick. -/
theorem processGo_spec {iter : List (Nat × JSVal)} {st st' : WwState} {evs : List Event}
    (hwf : propsIdsFrom 0 st.props = true)
    (hok : processGo iter st = .ok (st', evs)) :
    st'.heap = st.heap ∧
    propsIdsFrom 0 st'.props = true ∧
    st'.props.length = st.props.length ∧
    (∀ j r, st.props.get? j = some r → ∃ r', st'.props.get? j = some r' ∧
        r'.id = r.id ∧ r'.path = r.path ∧ r'.context = r.context) ∧
    (∀ j c, plookup st'.pending j = some c → plookup st.pending j = some c) ∧
    (∀ e ∈ evs, plookup st.pending e.arg.id = some e.cb ∧
        plookup e.pendingAtCall e.arg.id = some e.cb ∧
        plookup st'.pending e.arg.id = none) ∧
    List.Pairwise (fun e₁ e₂ => e₁.arg.id ≠ e₂.arg.id) evs := by
  induction iter generalizing st evs with
  | nil =>
    simp only [processGo, Except.ok.injEq, Prod.mk.injEq] at hok
    obtain ⟨rfl, rfl⟩ := hok
    exact ⟨rfl, hwf, rfl, fun j r hr => ⟨r, hr, rfl, rfl, rfl⟩, fun j c hc => hc,
      by simp, by simp⟩
  | cons p rest ih =>
    obtain ⟨i, c⟩ := p
    rw [processGo] at hok
    split at hok
    · exact ih hwf hok
    · rename_i cb hpl
      split at hok
      · exact absurd hok (by simp)
      · rename_i property hprop
        split at hok
        · exact absurd hok (by simp)
        · rename_i value h₁ hres
          have hh₁ : h₁ = st.heap := getPropLoop_noext_heap hres
          subst hh₁
          split at hok
          · exact ih hwf hok
          · rename_i hdef
            dsimp only at hok
            split at hok
            · exact absurd hok (by simp)
            · rename_i st'' evs' hrec
              simp only [Except.ok.injEq, Prod.mk.injEq] at hok
              obtain ⟨rfl, rfl⟩ := hok
              have hid : property.id = i := by
                have := propsIdsFrom_get hwf hprop
                omega
              have hwf₂ : propsIdsFrom 0
                  (st.props.set i { property with type := value.typeof, value := value }) =
                  true := propsIdsFrom_set hwf hprop rfl
              obtain ⟨ihheap, ihwf, ihlen, ihprops, ihmono, ihfired, ihpw⟩ := ih hwf₂ hrec
              refine ⟨by simpa using ihheap, ihwf, by simpa using ihlen, ?_, ?_, ?_, ?_⟩
              · intro j r hr
                by_cases hj : j = i
                · subst hj
                  have hjlt : j < st.props.length := by
                    by_contra hcon
                    rw [List.get?_len_le (by omega)] at hprop
                    exact absurd hprop (by simp)
                  obtain ⟨r', hr', hrid, hrpath, hrctx⟩ := ihprops j
                    { property with type := value.typeof, value := value }
                    (by rw [List.get?_set_eq_of_lt _ hjlt])
                  rw [hprop] at hr
                  cases hr
                  exact ⟨r', hr', hrid, hrpath, hrctx⟩
                · obtain ⟨r', hr', hrid, hrpath, hrctx⟩ := ihprops j r
                    (by rw [List.get?_set_ne _ _ (fun hcon => hj hcon.symm)]; exact hr)
                  exact ⟨r', hr', hrid, hrpath, hrctx⟩
              · intro j d hd
                have h2 := ihmono j d hd
                by_cases hj : j = i
                · subst hj
                  rw [plookup_premove_self] at h2
                  exact absurd h2 (by simp)
                · rw [plookup_premove_ne _ _ _ hj] at h2
                  exact h2
              · intro e he
                rcases List.mem_cons.1 he with rfl | he
                · refine ⟨?_, ?_, ?_⟩
                  · simpa [Event.arg, hid] using hpl
                  · simpa [Event.arg, Event.pendingAtCall, hid] using hpl
                  · simp only [Event.arg, hid]
                    cases hcase : plookup st''.pending i with
                    | none => rfl
                    | some d =>
                      have := ihmono i d hcase
                      rw [plookup_premove_self] at this
                      exact absurd this (by simp)
                · obtain ⟨h2, h3, h4⟩ := ihfired e he
                  refine ⟨?_, h3, h4⟩
                  have hne : e.arg.id ≠ i := by
                    intro hcon
                    rw [hcon, plookup_premove_self] at h2
                    exact absurd h2 (by simp)
                  rw [plookup_premove_ne _ _ _ hne] at h2
                  exact h2
              · refine List.pairwise_cons.2 ⟨?_, ihpw⟩
                intro e he
                obtain ⟨h2, -, -⟩ := ihfired e he
                simp only [Event.arg, hid]
                intro hcon
                rw [← hcon, plookup_premove_self] at h2
                exact absurd h2 (by simp)

theorem countEvents_append (i : Nat) (l₁ l₂ : List Event) :
    countEvents i (l₁ ++ l₂) = countEvents i l₁ + countEvents i l₂ := by
  simp [countEvents, List.filter_append]

theorem countEvents_le_one_of_pairwise {evs : List Event} {i : Nat}
    (hpw : List.Pairwise (fun e₁ e₂ => e₁.arg.id ≠ e₂.arg.id) evs) :
    countEvents i evs ≤ 1 := by
  induction evs with
  | nil => simp [countEvents]
  | cons e rest ih =>
    rw [List.pairwise_cons] at hpw
    by_cases he : e.arg.id = i
    · have hz : countEvents i rest = 0 := by
        rw [countEvents, List.length_eq_zero, List.filter_eq_nil]
        intro b hb
        have h2 := hpw.1 b hb
        rw [he] at h2
        simpa using (Ne.symm h2)
      unfold countEvents at hz ⊢
      rw [List.filter_cons, if_pos (by simp [he])]
      simp [List.length_cons, hz]
    · have h2 := ih hpw.2
      simpa [countEvents, List.filter_cons, he] using h2

theorem countEvents_pos_mem {i : Nat} {evs : List Event} (hc : countEvents i evs ≠ 0) :
    ∃ e ∈ evs, e.arg.id = i := by
  unfold countEvents at hc
  cases hf : evs.filter (fun e => e.arg.id == i) with
  | nil => rw [hf] at hc; simp at hc
  | cons e t =>
    have he : e ∈ evs.filter (fun e => e.arg.id == i) := by
      rw [hf]; exact List.mem_cons_self _ _
    rw [List.mem_filter] at he
    exact ⟨e, he.1, by simpa using he.2⟩

/-- An id that is not pending produces no invocation at any number of
ticks, and stays non-pending: the engine never re-adds entries. -/
theorem processIter_not_pending {n : Nat} {st st' : WwState} {evs : List Event} {i : Nat}
    (hwf : propsIdsFrom 0 st.props = true)
    (hnp : plookup st.pending i = none)
    (hok : processIter n st = .ok (st', evs)) :
    countEvents i evs = 0 ∧ plookup st'.pending i = none ∧
      propsIdsFrom 0 st'.props = true := by
  induction n generalizing st evs with
  | zero =>
    simp only [processIter, Except.ok.injEq, Prod.mk.injEq] at hok
    obtain ⟨rfl, rfl⟩ := hok
    exact ⟨by simp [countEvents], hnp, hwf⟩
  | succ n ih =>
    rw [processIter] at hok
    split at hok
    · exact absurd hok (by simp)
    · rename_i st₁ evs₁ h1
      split at hok
      · exact absurd hok (by simp)
      · rename_i st₂ evs₂ h2
        simp only [Except.ok.injEq, Prod.mk.injEq] at hok
        obtain ⟨rfl, rfl⟩ := hok
        obtain ⟨-, hwf₁, -, -, hmono, hfired, -⟩ := processGo_spec hwf h1
        have hz₁ : countEvents i evs₁ = 0 := by
          rw [countEvents, List.length_eq_zero, List.filter_eq_nil]
          intro e he
          obtain ⟨h3, -, -⟩ := hfired e he
          simp only [beq_iff_eq]
          intro hcon
          rw [hcon, hnp] at h3
          exact absurd h3 (by simp)
        have hnp₁ : plookup st₁.pending i = none := by
          cases hcase : plookup st₁.pending i with
          | none => rfl
          | some d =>
            have := hmono i d hcase
            rw [hnp] at this
            exact absurd this (by simp)
        obtain ⟨hz₂, hnp₂, hwf₂⟩ := ih hwf₁ hnp₁ h2
        exact ⟨by rw [countEvents_append, hz₁, hz₂], hnp₂, hwf₂⟩

/-- Across any number of consecutive ticks, a given record id fires at
most once: once it fires its pending entry is gone, and the engine
never re-adds entries on its own. -/
theorem processIter_at_most_once {n : Nat} {st st' : WwState} {evs : List Event} {i : Nat}
    (hwf : propsIdsFrom 0 st.props = true)
    (hok : processIter n st = .ok (st', evs)) :
    countEvents i evs ≤ 1 := by
  induction n generalizing st evs with
  | zero =>
    simp only [processIter, Except.ok.injEq, Prod.mk.injEq] at hok
    obtain ⟨rfl, rfl⟩ := hok
    simp [countEvents]
  | succ n ih =>
    rw [processIter] at hok
    split at hok
    · exact absurd hok (by simp)
    · rename_i st₁ evs₁ h1
      split at hok
      · exact absurd hok (by simp)
      · rename_i st₂ evs₂ h2
        simp only [Except.ok.injEq, Prod.mk.injEq] at hok
        obtain ⟨rfl, rfl⟩ := hok
        obtain ⟨-, hwf₁, -, -, hmono, hfired, hpw⟩ := processGo_spec hwf h1
        rw [countEvents_append]
        by_cases hc : countEvents i evs₁ = 0
        · rw [hc, Nat.zero_add]
          exact ih hwf₁ h2
        · obtain ⟨e, he, hei⟩ := countEvents_pos_mem hc
          obtain ⟨-, -, h4⟩ := hfired e he
          rw [hei] at h4
          obtain ⟨hz₂, -, -⟩ := processIter_not_pending hwf₁ h4 h2
          have h1le := countEvents_le_one_of_pairwise (i := i) hpw
          omega

theorem valOkb_mono {h h₂ : Heap} (hlen : h.length ≤ h₂.length) {x : JSVal}
    (hx : valOkb h x = true) : valOkb h₂ x = true := by
  cases x <;> simp_all [valOkb] <;> omega

theorem heapWFb_append_nil {h : Heap} (hwf : heapWFb h = true) :
    heapWFb (h ++ [[]]) = true := by
  simp only [heapWFb, List.all_eq_true] at hwf ⊢
  intro o ho p hp
  rcases List.mem_append.1 ho with ho | ho
  · exact valOkb_mono (by simp) (hwf o ho p hp)
  · simp only [List.mem_singleton] at ho
    subst ho
    simp at hp

/-! ## Facade lemmas -/

/-- What a successful string-path access pins down: the returned
record copies the fixed-up context, gets the next id (the registry
size), carries the path, tags the type of the resolved value, and the
state only grows the registry by that one record — the heap is
untouched. -/
theorem Ww_str_spec {p : String} {c : JSVal} {st st₁ : WwState} {s₁ : PropertyRecord}
    (hok : Ww (.str p) c st = .ok (some s₁, st₁)) :
    s₁.context = _getContext c ∧ s₁.id = st.props.length ∧ s₁.path = p ∧
    s₁.type = s₁.value.typeof ∧
    _getProperty p (_getContext c) .undef st.heap = .ok (s₁.value, st.heap) ∧
    st₁ = { st with props := st.props ++ [s₁] } := by
  simp only [Ww] at hok
  split at hok
  · exact absurd hok (by simp)
  · split at hok
    · exact absurd hok (by simp)
    · rename_i value h' hres
      simp only [Except.ok.injEq, Prod.mk.injEq, Option.some.injEq] at hok
      obtain ⟨rfl, rfl⟩ := hok
      have hh : h' = st.heap := getPropLoop_noext_heap hres
      subst hh
      exact ⟨rfl, rfl, rfl, rfl, hres, rfl⟩

/-- Access by a known id returns the stored record, creating nothing. -/
theorem Ww_num_get {st : WwState} {k : Nat} {r : PropertyRecord} (c : JSVal)
    (hget : st.props.get? k = some r) :
    Ww (.num (Int.ofNat k)) c st = .ok (some r, st) := by
  rw [List.get?_eq_getElem?] at hget
  simp [Ww, hget]

/-- Access by an id that was never issued returns `undefined`. -/
theorem Ww_num_none {st : WwState} {k : Nat} (c : JSVal) (hk : st.props.length ≤ k) :
    Ww (.num (Int.ofNat k)) c st = .ok (none, st) := by
  simp [Ww, List.getElem?_eq_none hk]

/-! ## Claims -/

/-- C1, counterexample.  The claim says a resolved pending entry is
removed from the pending set before its callback is invoked, so that
the callback never runs while its id is still present.  In the code
(src/ww.js lines 186-188) the order is: update the record, invoke the
callback, and only then `delete _propertiesUnready[i]`.  Concretely:
from `stC1` (entry 0 pending, `ctx.a` now `true`) one tick fires the
callback for id 0 with the pending map at call time still containing
id 0 — refuting the claim. -/
theorem C1_counterexample :
    PropertiesUnready.process stC1 = .ok (stC1', [evC1]) ∧
    evC1.arg.id = 0 ∧ plookup evC1.pendingAtCall evC1.arg.id = some evC1.cb := by
  decide

/-- C1, amended.  On every tick, when a pending entry's path
re-resolves to a value, the callback is invoked while its id is still
present in the pending set (and the callback invoked is exactly the
stored one); the entry is removed immediately after the callback
returns, so once the tick completes the id is no longer pending. -/
theorem C1_amended (st st' : WwState) (evs : List Event)
    (hwf : PropsWF st)
    (hok : PropertiesUnready.process st = .ok (st', evs)) :
    ∀ e ∈ evs, plookup e.pendingAtCall e.arg.id = some e.cb ∧
      plookup st'.pending e.arg.id = none := by
  obtain ⟨-, -, -, -, -, hfired, -⟩ := processGo_spec hwf hok
  intro e he
  obtain ⟨-, h2, h3⟩ := hfired e he
  exact ⟨h2, h3⟩

/-- Witness for C1's amended theorem at the concrete tick of
`C1_counterexample`. -/
theorem C1_amended_witness :
    PropsWF stC1 ∧
    (∀ e ∈ [evC1], plookup e.pendingAtCall e.arg.id = some e.cb ∧
      plookup stC1'.pending e.arg.id = none) :=
  ⟨by decide, C1_amended stC1 stC1' [evC1] (by decide) (by decide)⟩

/-- C2, counterexample.  The claim says a missing non-final segment is
set to a fresh empty container and only the final segment receives the
extension value.  Extending `a.b` in an empty context with the marker
object `{ m: 1 }` instead stores the marker object itself at the
non-final segment `a` (the walk then continues inside it): afterwards
the path `a.m` resolves to `1`, which would be impossible had `a` been
set to a fresh empty container. -/
theorem C2_counterexample :
    _getProperty "a.b" (.obj 1) (.obj 2) heapC2 = .ok (.obj 2, heapC2') ∧
    _getProperty "a.m" (.obj 1) .undef heapC2' = .ok (.num 1, heapC2') ∧
    objGet heapC2' 1 "a" = some (.obj 2) := by
  decide

/-- C2, amended.  When the resolver is called with an extension value
and meets missing segments, every segment it creates — non-final or
final — is set to the supplied extension value itself, never to a
fresh empty container: any heap location the call changes ends up
holding exactly the extension value (and the walk continues into the
value just stored). -/
theorem C2_amended (p : String) (context extendValue r : JSVal) (h h' : Heap)
    (hext : extendValue.typeof ≠ "undefined")
    (hok : _getProperty p context extendValue h = .ok (r, h')) :
    ∀ a f, objGet h' a f ≠ objGet h a f → objGet h' a f = some extendValue :=
  getPropLoop_writes hok

/-- Witness for C2's amended theorem at the concrete extension of
`C2_counterexample`. -/
theorem C2_amended_witness :
    (JSVal.obj 2).typeof ≠ "undefined" ∧
    (∀ a f, objGet heapC2' a f ≠ objGet heapC2 a f →
      objGet heapC2' a f = some (JSVal.obj 2)) :=
  ⟨by decide, C2_amended "a.b" (.obj 1) (.obj 2) (.obj 2) heapC2 heapC2'
    (by decide) (by decide)⟩

/-- C3, counterexample.  The claim says `extend` updates the live
`PropertyRecord` in place so that a later registry lookup of the same
id sees the newly resolved value.  `ww.prototype.extend` (src/ww.js
lines 320-325) only calls `_getProperty` — it never calls
`property.update` and never touches the registry: after
`extend(true)` resolves `a` to `true`, looking the record up by id
still shows the stored value `undefined`. -/
theorem C3_counterexample :
    ww.extend recA (.bool true) stA = .ok (.bool true, stA') ∧
    Ww (.num 0) .undef stA' = .ok (some recA, stA') ∧
    recA.value = .undef ∧ JSVal.undef ≠ JSVal.bool true := by
  decide

/-- C3, amended.  `extend` re-resolves the snapshot's path with
extension and returns the resolved value, but leaves the registry (and
the pending map) untouched: the record's stored `value` is unchanged.
A later lookup of the same id sees the newly resolved value only
through `getValue()`, which re-resolves the path against the
now-extended heap. -/
theorem C3_amended (s : PropertyRecord) (v r : JSVal) (st st' : WwState)
    (hwf : heapWFb st.heap = true) (hctx : valOkb st.heap s.context = true)
    (hv : valOkb st.heap v = true)
    (hok : ww.extend s v st = .ok (r, st')) :
    st'.props = st.props ∧ st'.pending = st.pending ∧
    (∀ d, ww.getValue s d st'.heap =
      .ok (if r.typeof ≠ "undefined" then r else d, st'.heap)) := by
  rw [ww.extend] at hok
  by_cases hu : v.typeof = "undefined"
  · rw [if_pos hu] at hok
    dsimp only at hok
    split at hok
    · exact absurd hok (by simp)
    · rename_i r₀ h' hres
      simp only [Except.ok.injEq, Prod.mk.injEq] at hok
      obtain ⟨rfl, rfl⟩ := hok
      have hwf₀ : heapWFb (st.heap ++ [[]]) = true := heapWFb_append_nil hwf
      have hctx₀ : valOkb (st.heap ++ [[]]) s.context = true :=
        valOkb_mono (by simp) hctx
      have hv₀ : valOkb (st.heap ++ [[]]) (JSVal.obj st.heap.length) = true := by
        simp [valOkb]
      obtain ⟨hidem, -, -, -⟩ :=
        getPropLoop_idem hwf₀ hctx₀ hv₀ (by simp) hres
      refine ⟨rfl, rfl, fun d => ?_⟩
      rw [ww.getValue]
      simp only [_getProperty]
      simp only [hidem]
  · rw [if_neg hu] at hok
    dsimp only at hok
    split at hok
    · exact absurd hok (by simp)
    · rename_i r₀ h' hres
      simp only [Except.ok.injEq, Prod.mk.injEq] at hok
      obtain ⟨rfl, rfl⟩ := hok
      obtain ⟨hidem, -, -, -⟩ :=
        getPropLoop_idem hwf hctx hv (fun hcon => hu (by rw [hcon]; rfl)) hres
      refine ⟨rfl, rfl, fun d => ?_⟩
      rw [ww.getValue]
      simp only [_getProperty]
      simp only [hidem]

/-- Witness for C3's amended theorem at the concrete extension of
`C3_counterexample`. -/
theorem C3_amended_witness :
    heapWFb stA.heap = true ∧ valOkb stA.heap recA.context = true ∧
    valOkb stA.heap (JSVal.bool true) = true ∧
    (stA'.props = stA.props ∧ stA'.pending = stA.pending ∧
      (∀ d, ww.getValue recA d stA'.heap =
        .ok (if (JSVal.bool true).typeof ≠ "undefined" then JSVal.bool true else d,
          stA'.heap))) :=
  ⟨by decide, by decide, by decide,
    C3_amended recA (.bool true) (.bool true) stA stA'
      (by decide) (by decide) (by decide) (by decide)⟩

/-- C4.  `ready` with a function callback: when the snapshot's value
is present (its captured type tag is not `"undefined"`, equivalently
its stored value is defined), the callback is invoked synchronously
within the same call — the single invocation event is produced by the
call itself — and the call reports ready; when the value is absent,
the callback is registered with the readiness engine, the call reports
not-yet-ready and produces no invocation, and across any number of
subsequent engine ticks the entry fires at most once; `ready` without
an invocable callback just reports readiness. -/
theorem C4_ready (s : PropertyRecord) (callback : JSVal) (st : WwState)
    (hfn : callback.typeof = "function") (hwf : PropsWF st) :
    (s.type ≠ "undefined" →
      ww.ready s callback st = (true, st, [⟨callback, s, st.pending⟩])) ∧
    (s.type = "undefined" → (st.props.get? s.id).isSome = true →
      ww.ready s callback st =
        (false, { st with pending := pset st.pending s.id callback }, []) ∧
      plookup (pset st.pending s.id callback) s.id = some callback ∧
      (∀ n st' evs,
        processIter n { st with pending := pset st.pending s.id callback } = .ok (st', evs) →
        countEvents s.id evs ≤ 1)) ∧
    (∀ c : JSVal, c.typeof ≠ "function" →
      ww.ready s c st = ((if s.type ≠ "undefined" then true else false), st, [])) := by
  refine ⟨?_, ?_, ?_⟩
  · intro ht
    simp [ww.ready, ht, hfn]
  · intro ht hsome
    obtain ⟨rec, hrec⟩ := Option.isSome_iff_exists.mp hsome
    have hlt : s.id < st.props.length := by
      by_contra hcon
      rw [List.get?_len_le (by omega)] at hrec
      exact absurd hrec (by simp)
    have hset : PropertiesUnready.set s.id callback st =
        (true, { st with pending := pset st.pending s.id callback }) := by
      simp [PropertiesUnready.set, hfn, hrec, hlt]
    refine ⟨?_, plookup_pset_self _ _ _, ?_⟩
    · simp [ww.ready, ht, hfn, hset]
    · intro n st' evs hiter
      exact processIter_at_most_once (by exact hwf) hiter
  · intro c hc
    by_cases ht : s.type = "undefined" <;> simp [ww.ready, ht, hc]

/-- Witness for C4 on the snapshot of `ww('a', {})` (value absent). -/
theorem C4_ready_witness :
    (recA.type ≠ "undefined" →
      ww.ready recA (.fn 0) stA = (true, stA, [⟨.fn 0, recA, stA.pending⟩])) ∧
    (recA.type = "undefined" → (stA.props.get? recA.id).isSome = true →
      ww.ready recA (.fn 0) stA =
        (false, { stA with pending := pset stA.pending recA.id (.fn 0) }, []) ∧
      plookup (pset stA.pending recA.id (.fn 0)) recA.id = some (.fn 0) ∧
      (∀ n st' evs,
        processIter n { stA with pending := pset stA.pending recA.id (.fn 0) } =
          .ok (st', evs) →
        countEvents recA.id evs ≤ 1)) ∧
    (∀ c : JSVal, c.typeof ≠ "function" →
      ww.ready recA c stA = ((if recA.type ≠ "undefined" then true else false), stA, [])) :=
  C4_ready recA (.fn 0) stA (by decide) (by decide)

/-- C5, counterexample.  The claim says `extend(v)` on a non-resolving
path creates the full chain of missing segments so that a subsequent
`access(p, c).getValue()` returns `v`.  Extending the non-resolving
path `a.b` with the object `{ b: 5 }` (address 2 of `stB1`) sets the
missing segment `a` to that object itself and then continues the walk
inside it, finding its own field `b = 5`: the call returns `5` and a
subsequent `getValue()` on the same path returns `5`, not the supplied
value. -/
theorem C5_counterexample :
    ww.extend recB (.obj 2) stB1 = .ok (.num 5, stB2) ∧
    ww.getValue recB .undef stB2.heap = .ok (.num 5, stB2.heap) ∧
    JSVal.num 5 ≠ JSVal.obj 2 := by
  decide

/-- C5, amended.  `extend` on an already-resolved path returns the
existing value and changes nothing, even when an explicit new value is
supplied; `extend(v)` on a path whose only missing segment is the
final one sets that segment to `v` and a subsequent `getValue()` on
the same path and context returns `v`.  (On longer missing chains
every missing segment is set to `v` itself, so the result is dictated
by `v`'s own fields — see the counterexample.) -/
theorem C5_amended (st : WwState) (s : PropertyRecord) :
    (∀ v r, v.typeof ≠ "undefined" →
      _getProperty s.path s.context .undef st.heap = .ok (r, st.heap) →
      r.typeof ≠ "undefined" →
      ww.extend s v st = .ok (r, st)) ∧
    (∀ v pre lastSeg w,
      heapWFb st.heap = true → valOkb st.heap s.context = true →
      valOkb st.heap v = true → v ≠ .undef →
      splitDot s.path = pre ++ [lastSeg] →
      getPropLoop st.heap pre s.context .undef = .ok (w, st.heap) →
      valOkb st.heap w = true →
      (∃ aw, w = .obj aw ∨ w = .fn aw) →
      getProp st.heap w lastSeg = .ok .undef →
      ∃ h₁, ww.extend s v st = .ok (v, { st with heap := h₁ }) ∧
        (∀ d, ww.getValue s d h₁ = .ok (v, h₁))) := by
  constructor
  · intro v r hv hres hr
    have h2 : _getProperty s.path s.context v st.heap = .ok (r, st.heap) :=
      getPropLoop_resolved hres hr v
    simp only [ww.extend, if_neg hv, h2]
  · rintro v pre lastSeg w hwf hctx hv hvu hsplit hpre hwOk ⟨aw, hw⟩ hmiss
    have hvt : v.typeof ≠ "undefined" := fun hcon => hvu ((typeof_undef_iff v).mp hcon)
    have hwt : w.typeof ≠ "undefined" := by
      rcases hw with rfl | rfl <;> simp [JSVal.typeof]
    have hwne : w ≠ .undef := by
      rcases hw with rfl | rfl <;> simp
    have hpreExt := getPropLoop_resolved hpre hwt v
    have hsetOk : ∃ h₁, setProp st.heap w lastSeg v = .ok h₁ := by
      rcases hw with rfl | rfl <;> exact ⟨_, rfl⟩
    obtain ⟨h₁, hset⟩ := hsetOk
    have hre : getProp h₁ w lastSeg = .ok v := setProp_get hset hwOk
    have hlast : getPropLoop st.heap [lastSeg] w v = .ok (v, h₁) := by
      rw [getPropLoop]
      simp only [hmiss]
      rw [if_pos (show JSVal.undef.typeof = "undefined" from rfl), if_pos hvt]
      simp only [hset, hre]
      rfl
    have hfull : getPropLoop st.heap (splitDot s.path) s.context v = .ok (v, h₁) := by
      rw [hsplit, getPropLoop_append hpreExt hwne]
      exact hlast
    obtain ⟨hidem, -, -, -⟩ := getPropLoop_idem hwf hctx hv hvu hfull
    refine ⟨h₁, ?_, fun d => ?_⟩
    · simp only [ww.extend, if_neg hvt]
      have h2 : _getProperty s.path s.context v st.heap = .ok (v, h₁) := hfull
      simp only [h2]
    · rw [ww.getValue]
      have h3 : _getProperty s.path s.context .undef h₁ = .ok (v, h₁) := hidem
      simp only [h3]
      rw [if_pos hvt]

/-- Witness for C5's amended theorem: the resolved half on
`ww('a', ctx)` after `ctx.a = true` (an explicit new value `9` changes
nothing), and the missing-final-segment half on `ww('a', {})` extended
with `true`. -/
theorem C5_amended_witness :
    (ww.extend recA (.num 9) stA' = .ok (.bool true, stA')) ∧
    (∃ h₁, ww.extend recA (.bool true) stA = .ok (.bool true, { stA with heap := h₁ }) ∧
      (∀ d, ww.getValue recA d h₁ = .ok (.bool true, h₁))) :=
  ⟨(C5_amended stA' recA).1 (.num 9) (.bool true) (by decide) (by decide) (by decide),
   (C5_amended stA recA).2 (.bool true) [] "a" (.obj 1) (by decide) (by decide)
     (by decide) (by decide) (by decide) (by decide) (by decide)
     ⟨1, Or.inl rfl⟩ (by decide)⟩

/-- C6.  Round-trip through the registry: after `access(p, c)` returns
the snapshot with id `i`, `access(i)` returns that record from the
registry without creating anything (the state is returned unchanged);
whenever the registry later holds a record for `i` with the same path
and context — the engine only ever rewrites `type`/`value` —
`access(i)` returns it and its `getValue()` agrees with the original
snapshot's `getValue()` on the then-current heap (both re-resolve the
same path against the same context).  Ids never issued, negative ones
included, yield `undefined`. -/
theorem C6_roundtrip (p : String) (c c₂ : JSVal) (st st₁ : WwState) (s₁ : PropertyRecord)
    (hok : Ww (.str p) c st = .ok (some s₁, st₁)) :
    Ww (.num (Int.ofNat s₁.id)) c₂ st₁ = .ok (some s₁, st₁) ∧
    (∀ st₂ r', st₂.props.get? s₁.id = some r' → r'.path = s₁.path →
      r'.context = s₁.context →
      Ww (.num (Int.ofNat s₁.id)) c₂ st₂ = .ok (some r', st₂) ∧
      ∀ d, ww.getValue r' d st₂.heap = ww.getValue s₁ d st₂.heap) ∧
    (∀ (st₃ : WwState) (k : Nat), st₃.props.length ≤ k →
      Ww (.num (Int.ofNat k)) c₂ st₃ = .ok (none, st₃)) ∧
    (∀ (st₃ : WwState) (k : Nat), Ww (.num (Int.negSucc k)) c₂ st₃ = .ok (none, st₃)) := by
  obtain ⟨hctx, hid, hpath, htype, hres, hst⟩ := Ww_str_spec hok
  have hget : st₁.props.get? s₁.id = some s₁ := by
    rw [hst, hid]
    exact List.get?_concat_length _ _
  refine ⟨Ww_num_get c₂ hget, ?_, ?_, ?_⟩
  · intro st₂ r' hr hrp hrc
    refine ⟨Ww_num_get c₂ hr, fun d => ?_⟩
    rw [ww.getValue, ww.getValue, hrp, hrc]
  · intro st₃ k hk
    exact Ww_num_none c₂ hk
  · intro st₃ k
    simp [Ww]

/-- Witness for C6 at `ww('a', ctx)` on the empty context, with the
host later setting `ctx.a = true` (state `stA'`) as the intervening
update; `access(5)` and `access(-1)` yield `undefined`. -/
theorem C6_roundtrip_witness :
    Ww (.num (Int.ofNat recA.id)) .undef stA = .ok (some recA, stA) ∧
    (Ww (.num (Int.ofNat recA.id)) .undef stA' = .ok (some recA, stA') ∧
      ∀ d, ww.getValue recA d stA'.heap = ww.getValue recA d stA'.heap) ∧
    Ww (.num (Int.ofNat 5)) .undef stA = .ok (none, stA) ∧
    Ww (.num (Int.negSucc 0)) .undef stA = .ok (none, stA) :=
  have h := C6_roundtrip "a" (.obj 1) .undef stCtx stA recA (by decide)
  ⟨h.1, h.2.1 stA' recA (by decide) (by decide) (by decide), h.2.2.1 stA 5 (by decide),
   h.2.2.2 stA 0⟩

/-- C7.  Snapshot isolation: a string-path access never mutates the
context object graph (the heap handed back is the one handed in, so
any direct field read is unchanged); the snapshot is a detached copy,
so overwriting its `value` field yields a record value with the new
field while a fresh `access(i)` for the same id — the mutated
snapshot's `id` field — still returns the stored record with its
original `value`, on an unchanged state. -/
theorem C7_snapshot_isolation (p : String) (c : JSVal) (st st₁ : WwState)
    (s : PropertyRecord)
    (hok : Ww (.str p) c st = .ok (some s, st₁)) :
    st₁.heap = st.heap ∧
    (∀ v : JSVal, ({ s with value := v } : PropertyRecord).value = v) ∧
    (∀ v : JSVal,
      Ww (.num (Int.ofNat ({ s with value := v } : PropertyRecord).id)) c st₁ =
        .ok (some s, st₁)) ∧
    (∀ x f, getProp st₁.heap x f = getProp st.heap x f) := by
  obtain ⟨hctx, hid, hpath, htype, hres, hst⟩ := Ww_str_spec hok
  have hget : st₁.props.get? s.id = some s := by
    rw [hst, hid]
    exact List.get?_concat_length _ _
  refine ⟨by rw [hst], fun v => rfl, fun v => ?_, fun x f => by rw [hst]⟩
  exact Ww_num_get c hget

/-- Witness for C7, mirroring the repository's own isolation tests:
`ww('a', {existentProperty:true})`-style snapshot, `value` overwritten
with `false`, fresh access by id unchanged. -/
theorem C7_snapshot_isolation_witness :
    stA'.heap = stA'.heap ∧
    (∀ v : JSVal, ({ recA with value := v } : PropertyRecord).value = v) ∧
    (∀ v : JSVal,
      Ww (.num (Int.ofNat ({ recA with value := v } : PropertyRecord).id)) (.obj 1) stA =
        .ok (some recA, stA)) ∧
    (∀ x f, getProp stA.heap x f = getProp stCtx.heap x f) :=
  have h := C7_snapshot_isolation "a" (.obj 1) stCtx stA recA (by decide)
  ⟨rfl, h.2.1, h.2.2.1, h.2.2.2⟩

/-- C8, counterexample.  The claim says the access call never throws
for any context argument.  But `typeof null` is `"object"`, so
`_getContext` keeps a `null` context, and resolving any segment
against `null` raises a host `TypeError`: `ww('a', null)` throws. -/
theorem C8_counterexample :
    Ww (.str "a") .null st0 = .error .typeError := by
  decide

/-- C8, amended.  When the context argument's `typeof` is neither
`"object"` nor `"function"`, access resolves against the process-wide
root object (the `Ww` function object).  A blank path is reported as
`undefined` without throwing, and whenever the no-extension walk never
dereferences `null` the call returns a snapshot without throwing —
reading a property of `null` (which `_getContext` lets through, since
`typeof null` is `"object"`) is the only way the call can throw. -/
theorem C8_amended (p : String) (context : JSVal) (st : WwState) :
    (context.typeof ≠ "object" → context.typeof ≠ "function" →
      Ww (.str p) context st = Ww (.str p) wwRoot st) ∧
    (isBlank p = true → Ww (.str p) context st = .ok (none, st)) ∧
    (isBlank p = false →
      nullFree st.heap (splitDot p) (_getContext context) = true →
      ∃ r st', Ww (.str p) context st = .ok (some r, st')) := by
  refine ⟨?_, ?_, ?_⟩
  · intro h1 h2
    have hc : _getContext context = wwRoot := by simp [_getContext, h1, h2]
    have hr : _getContext wwRoot = wwRoot := by simp [_getContext, wwRoot, JSVal.typeof]
    simp only [Ww, hc, hr]
  · intro hb
    simp [Ww, hb]
  · intro hb hnf
    obtain ⟨r, hr⟩ := nullFree_ok hnf
    have hr' : _getProperty p (_getContext context) .undef st.heap = .ok (r, st.heap) := hr
    exact ⟨⟨_getContext context, st.props.length, p, r.typeof, r⟩,
      { st with props := st.props ++
          [⟨_getContext context, st.props.length, p, r.typeof, r⟩] },
      by simp [Ww, hb, hr']⟩

/-- Witness for C8 with the number `7` as context (redirected to the
root object) and the non-blank path `a`. -/
theorem C8_amended_witness :
    Ww (.str "a") (.num 7) st0 = Ww (.str "a") wwRoot st0 ∧
    (∃ r st', Ww (.str "a") (.num 7) st0 = .ok (some r, st')) :=
  ⟨(C8_amended "a" (.num 7) st0).1 (by decide) (by decide),
   (C8_amended "a" (.num 7) st0).2.2 (by decide) (by decide)⟩

/-- C9.  The pending map holds at most one callback per record id:
registering a callback for an id that is already pending overwrites
the stored one — the two consecutive `set` calls leave exactly the
state a single `set` of the second callback would — and when the entry
later resolves, the callback invoked for that id is the most recently
registered one (the earlier callback is no longer stored anywhere, so
it is never invoked). -/
theorem C9_overwrite (st : WwState) (i : Nat) (c₁ c₂ : JSVal)
    (hwf : PropsWF st)
    (hrec : (st.props.get? i).isSome = true)
    (hf₁ : c₁.typeof = "function") (hf₂ : c₂.typeof = "function") :
    (PropertiesUnready.set i c₂ (PropertiesUnready.set i c₁ st).2).2.pending =
      pset st.pending i c₂ ∧
    plookup (PropertiesUnready.set i c₂ (PropertiesUnready.set i c₁ st).2).2.pending i =
      some c₂ ∧
    (∀ st' evs,
      PropertiesUnready.process
          (PropertiesUnready.set i c₂ (PropertiesUnready.set i c₁ st).2).2 =
        .ok (st', evs) →
      ∀ e ∈ evs, e.arg.id = i → e.cb = c₂) := by
  obtain ⟨rec, hrecs⟩ := Option.isSome_iff_exists.mp hrec
  have hlt : i < st.props.length := by
    by_contra hcon
    rw [List.get?_len_le (by omega)] at hrecs
    exact absurd hrecs (by simp)
  have hset₁ : PropertiesUnready.set i c₁ st =
      (true, { st with pending := pset st.pending i c₁ }) := by
    simp [PropertiesUnready.set, hf₁, hrecs, hlt]
  have hset₂ : PropertiesUnready.set i c₂ (PropertiesUnready.set i c₁ st).2 =
      (true, { st with pending := pset (pset st.pending i c₁) i c₂ }) := by
    rw [hset₁]
    simp [PropertiesUnready.set, hf₂, hrecs, hlt]
  have hpend : (PropertiesUnready.set i c₂ (PropertiesUnready.set i c₁ st).2).2.pending =
      pset st.pending i c₂ := by
    rw [hset₂]
    exact pset_pset_same _ _ _ _
  refine ⟨hpend, by rw [hpend]; exact plookup_pset_self _ _ _, ?_⟩
  intro st' evs hproc e he hei
  have hwfR : propsIdsFrom 0
      (PropertiesUnready.set i c₂ (PropertiesUnready.set i c₁ st).2).2.props = true := by
    rw [hset₂]
    exact hwf
  obtain ⟨-, -, -, -, -, hfired, -⟩ := processGo_spec hwfR hproc
  have h2 := (hfired e he).1
  rw [hei, hpend, plookup_pset_self] at h2
  exact (Option.some.inj h2).symm

/-- Witness for C9: on the state where `ctx.a` is already `true`,
register `.fn 0` then `.fn 1` for record 0; the next tick invokes
`.fn 1`. -/
theorem C9_overwrite_witness :
    (PropertiesUnready.set 0 (.fn 1) (PropertiesUnready.set 0 (.fn 0) stA').2).2.pending =
      pset stA'.pending 0 (.fn 1) ∧
    plookup (PropertiesUnready.set 0 (.fn 1)
      (PropertiesUnready.set 0 (.fn 0) stA').2).2.pending 0 = some (.fn 1) ∧
    (∀ e ∈ [evC9], e.arg.id = 0 → e.cb = .fn 1) :=
  have h := C9_overwrite stA' 0 (.fn 0) (.fn 1) (by decide) (by decide) (by decide) (by decide)
  ⟨h.1, h.2.1, h.2.2 stC1' [evC9] (by decide)⟩

/-- C10.  `ready` decides readiness from the type tag captured in the
snapshot at its creation, not by re-resolving the path: when the
snapshot's tag is `"undefined"` but the path now resolves to a defined
value in the context, `ready(cb)` still reports not-ready and defers
`cb` to a later engine tick — even though `getValue()` on the very
same snapshot already re-resolves and returns the now-available
value. -/
theorem C10_stale_type_tag (s : PropertyRecord) (callback v : JSVal) (st : WwState)
    (h' : Heap)
    (htype : s.type = "undefined")
    (hrec : (st.props.get? s.id).isSome = true)
    (hfn : callback.typeof = "function")
    (hres : _getProperty s.path s.context .undef st.heap = .ok (v, h'))
    (hdef : v.typeof ≠ "undefined") :
    ww.ready s callback st =
      (false, { st with pending := pset st.pending s.id callback }, []) ∧
    ∀ d, ww.getValue s d st.heap = .ok (v, h') := by
  constructor
  · obtain ⟨rec, hrecs⟩ := Option.isSome_iff_exists.mp hrec
    have hlt : s.id < st.props.length := by
      by_contra hcon
      rw [List.get?_len_le (by omega)] at hrecs
      exact absurd hrecs (by simp)
    have hset : PropertiesUnready.set s.id callback st =
        (true, { st with pending := pset st.pending s.id callback }) := by
      simp [PropertiesUnready.set, hfn, hrecs, hlt]
    simp [ww.ready, htype, hfn, hset]
  · intro d
    rw [ww.getValue]
    simp only [hres]
    rw [if_pos hdef]

/-- Witness for C10: snapshot of `ww('a', ctx)` taken while `ctx.a`
was absent, `ready` called after the host set `ctx.a = true`. -/
theorem C10_stale_type_tag_witness :
    (ww.ready recA (.fn 0) stA' =
      (false, { stA' with pending := pset stA'.pending recA.id (.fn 0) }, []) ∧
    ∀ d, ww.getValue recA d stA'.heap = .ok (.bool true, stA'.heap)) :=
  C10_stale_type_tag recA (.fn 0) (.bool true) stA' stA'.heap
    (by decide) (by decide) (by decide) (by decide) (by decide)

end WwModel

